/-
Verification of the prickly parameter-tree editor core against its
specification.  The Rust source is shallowly embedded: machine integers
become `Nat` with explicit width bounds and checked operations returning
`Option` (so that an overflow, underflow or panic in the source shows up
as `none`), pure functions become Lean functions, and the interactive
components become explicit state-passing step functions.
-/
import Mathlib

namespace Prickly

/-! ## Checked machine arithmetic

The generic unsigned integer type `I : Bounded + Unsigned` of
`src/utils/modulo.rs` is embedded as natural numbers bounded by
`2^w - 1` for a width parameter `w`.  Every primitive operation is
checked: a `none` result corresponds to a Rust overflow / underflow /
division-by-zero panic. -/

/-- Checked machine subtraction: `none` models Rust underflow. -/
def sub? (x y : Nat) : Option Nat :=
  if y ≤ x then some (x - y) else none

/-- Checked machine addition at width `w`: `none` models Rust overflow. -/
def addW (w x y : Nat) : Option Nat :=
  if x + y ≤ 2 ^ w - 1 then some (x + y) else none

/-- Checked machine remainder: `none` models the Rust panic on `% 0`. -/
def mod? (x y : Nat) : Option Nat :=
  if y = 0 then none else some (x % y)

/-- `compliment` from `src/utils/modulo.rs`:
`(modulo - (value % modulo)) % modulo`. -/
def compliment (value modulo : Nat) : Option Nat := do
  let r ← mod? value modulo
  let d ← sub? modulo r
  mod? d modulo

/-- `add_mod` from `src/utils/modulo.rs`.  The width `w` instantiates the
generic `I::max_value()` as `2^w - 1`. -/
def add_mod (w augend addend modulo : Nat) : Option Nat := do
  let a ← mod? augend modulo
  let b ← mod? addend modulo
  let t ← sub? (2 ^ w - 1) b
  if t < a then do
    let ca ← compliment a modulo
    let cb ← compliment b modulo
    let s ← addW w ca cb
    sub? modulo s
  else do
    let s ← addW w a b
    mod? s modulo

/-- `sub_mod` from `src/utils/modulo.rs`. -/
def sub_mod (w minuend subtrahend modulo : Nat) : Option Nat := do
  let c ← compliment subtrahend modulo
  add_mod w minuend c modulo

/-- `compliment` never fails for a positive modulus that fits the width,
and returns `(m - v % m) % m`. -/
theorem compliment_eq (v m : Nat) (hm : 0 < m) :
    compliment v m = some ((m - v % m) % m) := by
  have hvm : v % m < m := Nat.mod_lt _ hm
  simp only [compliment, mod?, sub?, if_neg (Nat.pos_iff_ne_zero.mp hm)]
  simp [Nat.le_of_lt hvm]

theorem add_mod_exact (w a b m : Nat) (hm : 0 < m) (hb : b ≤ 2 ^ w - 1)
    (hmw : m ≤ 2 ^ w - 1) :
    add_mod w a b m = some ((a + b) % m) := by
  have hm0 : m ≠ 0 := Nat.pos_iff_ne_zero.mp hm
  have ham : a % m < m := Nat.mod_lt _ hm
  have hbm : b % m < m := Nat.mod_lt _ hm
  have hble : b % m ≤ 2 ^ w - 1 := le_trans (le_of_lt hbm) hmw
  simp only [add_mod, mod?, if_neg hm0, Option.bind_eq_bind, Option.some_bind,
    sub?, if_pos hble]
  by_cases hov : 2 ^ w - 1 - b % m < a % m
  · -- the complement-based branch
    have h1 : 2 ^ w - 1 < a % m + b % m := by omega
    have ha1 : 1 ≤ a % m := by omega
    have hb1 : 1 ≤ b % m := by omega
    rw [if_pos hov, compliment_eq _ _ hm, compliment_eq _ _ hm]
    have hca : (m - a % m % m) % m = m - a % m := by
      rw [Nat.mod_eq_of_lt ham, Nat.mod_eq_of_lt (by omega)]
    have hcb : (m - b % m % m) % m = m - b % m := by
      rw [Nat.mod_eq_of_lt hbm, Nat.mod_eq_of_lt (by omega)]
    rw [hca, hcb]
    simp only [Option.some_bind, addW]
    have hsum : m - a % m + (m - b % m) ≤ 2 ^ w - 1 := by omega
    rw [if_pos hsum]
    simp only [Option.some_bind, sub?]
    have hsle : m - a % m + (m - b % m) ≤ m := by omega
    rw [if_pos hsle]
    have hres : m - (m - a % m + (m - b % m)) = a % m + b % m - m := by omega
    have hmod : (a + b) % m = a % m + b % m - m := by
      rw [Nat.add_mod]
      rw [Nat.mod_eq_sub_mod (by omega)]
      exact Nat.mod_eq_of_lt (by omega)
    rw [hres, hmod]
  · rw [if_neg hov]
    have hsum : a % m + b % m ≤ 2 ^ w - 1 := by omega
    simp only [addW, if_pos hsum, Option.some_bind, mod?, if_neg hm0]
    rw [← Nat.add_mod]

theorem sub_mod_exact (w a b m : Nat) (hm : 0 < m) (hmw : m ≤ 2 ^ w - 1) :
    ∃ r, sub_mod w a b m = some r ∧ r < m ∧
      (r : Int) = ((a : Int) - (b : Int)) % (m : Int) := by
  have hbm : b % m < m := Nat.mod_lt _ hm
  have hc : (m - b % m) % m < m := Nat.mod_lt _ hm
  refine ⟨(a + (m - b % m) % m) % m, ?_, Nat.mod_lt _ hm, ?_⟩
  · simp only [sub_mod, compliment_eq _ _ hm, Option.bind_eq_bind, Option.some_bind]
    rw [add_mod_exact w a _ m hm (le_trans (le_of_lt hc) hmw) hmw]
  · have hmz : (m : Int) ≠ 0 := by exact_mod_cast Nat.pos_iff_ne_zero.mp hm
    have hcast : (((a + (m - b % m) % m) % m : Nat) : Int)
        = ((a : Int) + ((m : Int) - (b : Int) % m) % m) % m := by
      push_cast [Nat.cast_sub (le_of_lt hbm)]
      ring_nf
    rw [hcast]
    have hmeq : ((a : Int) + ((m : Int) - (b : Int) % m) % m) % m
        = ((a : Int) - (b : Int)) % m := by
      calc ((a : Int) + ((m : Int) - (b : Int) % m) % m) % m
          = ((a : Int) + ((m : Int) - (b : Int) % m)) % m := by
            rw [Int.add_emod, Int.emod_emod_of_dvd _ dvd_rfl, ← Int.add_emod]
        _ = ((a : Int) - (b : Int) % m + m * 1) % m := by
            rw [show (a : Int) + ((m : Int) - (b : Int) % m)
              = (a : Int) - (b : Int) % m + m * 1 from by ring]
        _ = ((a : Int) - (b : Int) % m) % m := by
            rw [Int.add_mul_emod_self_left]
        _ = ((a : Int) - (b : Int)) % m := by
            rw [Int.sub_emod, Int.emod_emod_of_dvd _ dvd_rfl, ← Int.sub_emod]
    rw [hmeq]

/-! ## Input events

Abstract input events (crossterm key events restricted to the codes the
components inspect; `Event` from `src/comp/mod.rs`). -/

inductive KeyCode where
  | up
  | down
  | enter
  | backspace
  | esc
  | tab
  | char (c : Char)
  | other
deriving DecidableEq, Repr

structure KeyEvent where
  code : KeyCode
  shift : Bool
  ctrl : Bool
deriving DecidableEq, Repr

inductive Event where
  | key (k : KeyEvent)
  | mouse
deriving DecidableEq, Repr

/-- A plain (unmodified) key press. -/
def keyPress (c : KeyCode) : Event := .key ⟨c, false, false⟩

/-! ## Labels and 40-bit hashes

`Hash40` (prc crate) is a 40-bit integer key; the process-wide label map
associates hashes with human-readable labels.  The prc crate is external
to this repository, so its functions are modelled from the spec. -/

/-- The label corpus: pairs of hash and label (§3 LabelCorpus). -/
abbrev LabelMap := List (Nat × String)

/-- Modelled from the spec: the document's fixed 40-bit hash function
(`hash40` of the external prc crate, CRC32-based).  The spec only requires
a fixed function of the raw text producing a 40-bit value, so an arbitrary
computable stand-in with that shape (32-bit mix plus length byte above) is
used. -/
def hash40 (s : String) : Nat :=
  s.data.foldl (fun a c => (a * 31 + c.toNat) % 2 ^ 32) 0 + s.length % 2 ^ 8 * 2 ^ 32

/-- Modelled from the spec: `labels.hash_of` (external prc crate): the hash
registered for a label, if any. -/
def hashOfLabel (lbl : LabelMap) (s : String) : Option Nat :=
  (lbl.find? (fun p => p.2 == s)).map (·.1)

/-- Modelled from the spec: the label registered for a hash, if any. -/
def labelOfHash (lbl : LabelMap) (h : Nat) : Option String :=
  (lbl.find? (fun p => p.1 == h)).map (·.2)

/-- Hex digits of a natural number (most significant first). -/
def hexChars (n : Nat) : List Char :=
  Nat.toDigits 16 n

/-- Modelled from the spec: display of a `Hash40` without a label — the raw
numeric hash in hex (§3 Hash40Key). -/
def hexDisplay (h : Nat) : String :=
  "0x" ++ String.mk (hexChars h)

/-- Modelled from the spec: `Display` for `Hash40` (external prc crate):
the label when the corpus knows one, the raw hex otherwise. -/
def hashDisplay (lbl : LabelMap) (h : Nat) : String :=
  match labelOfHash lbl h with
  | some l => l
  | none => hexDisplay h

def isHexDigitChar (c : Char) : Bool :=
  c.isDigit || ('a' ≤ c && c ≤ 'f') || ('A' ≤ c && c ≤ 'F')

def hexVal (c : Char) : Nat :=
  if c.isDigit then c.toNat - '0'.toNat
  else if 'a' ≤ c && c ≤ 'f' then c.toNat - 'a'.toNat + 10
  else c.toNat - 'A'.toNat + 10

/-- Modelled from the spec: `Hash40::from_hex_str` (external prc crate) —
a `0x`-prefixed literal of one to ten hex digits; anything else is the
`InvalidHex` failure (§4.2). -/
def fromHexStr (s : String) : Option Nat :=
  match s.data with
  | '0' :: 'x' :: rest =>
      if rest ≠ [] ∧ rest.length ≤ 10 ∧ rest.all isHexDigitChar then
        some (rest.foldl (fun a c => a * 16 + hexVal c) 0)
      else none
  | _ => none

/-! ## Scalar parsing (Rust `str::parse`) -/

def digVal (c : Char) : Nat := c.toNat - '0'.toNat

/-- A non-empty all-decimal digit sequence, as a number. -/
def parseDigits (cs : List Char) : Option Nat :=
  if cs = [] then none
  else if cs.all Char.isDigit then
    some (cs.foldl (fun a c => a * 10 + digVal c) 0)
  else none

/-- Rust `str::parse::<uN>`: an optional `+` sign, then decimal digits,
rejecting values above the width's maximum. -/
def parseUnsigned (maxVal : Nat) (s : String) : Option Nat := do
  let cs := match s.data with
    | '+' :: rest => rest
    | cs => cs
  let v ← parseDigits cs
  if v ≤ maxVal then some v else none

/-- Rust `str::parse::<iN>`: an optional sign, then decimal digits,
rejecting values outside `[minVal, maxVal]`. -/
def parseSigned (minVal maxVal : Int) (s : String) : Option Int :=
  match s.data with
  | '-' :: rest => do
      let v ← parseDigits rest
      if minVal ≤ -(v : Int) then some (-(v : Int)) else none
  | '+' :: rest => do
      let v ← parseDigits rest
      if (v : Int) ≤ maxVal then some (v : Int) else none
  | cs => do
      let v ← parseDigits cs
      if (v : Int) ≤ maxVal then some (v : Int) else none

/-- Rust `str::parse::<bool>`: exactly `true` or `false`. -/
def parseBool (s : String) : Option Bool :=
  if s = "true" then some true
  else if s = "false" then some false
  else none

/-- Modelled from the spec: the `f32` payload of Float params is external
binary floating point; it is embedded as an exact rational, and its parser
as the plain decimal grammar (optional sign, digits, optional fractional
part). -/
def parseDecMag (cs : List Char) : Option ℚ :=
  let intPart := cs.takeWhile (· ≠ '.')
  match cs.dropWhile (· ≠ '.') with
  | [] => (parseDigits intPart).map (fun n => (n : ℚ))
  | '.' :: frac => do
      let i ← parseDigits intPart
      let f ← parseDigits frac
      some ((i : ℚ) + (f : ℚ) / (10 ^ frac.length : ℚ))
  | _ => none

/-- Modelled from the spec: `str::parse::<f32>` on editor text, as an exact
decimal into the rational Float payload. -/
def parseFloat (s : String) : Option ℚ :=
  match s.data with
  | '-' :: rest => (parseDecMag rest).map (fun q => -q)
  | '+' :: rest => parseDecMag rest
  | cs => parseDecMag cs

/-- Modelled from the spec: `Display` of the Float payload. -/
def formatFloat (q : ℚ) : String := toString q

/-! ## The parameter tree (`ParamKind` of the prc crate)

The tagged-union node type (§3 ParamNode).  Integer payloads are embedded
as unbounded `Int`/`Nat`; the editors only ever store in-range parsed
values, which is what the claims are about. -/

inductive ParamKind where
  | bool (v : Bool)
  | i8 (v : Int)
  | u8 (v : Nat)
  | i16 (v : Int)
  | u16 (v : Nat)
  | i32 (v : Int)
  | u32 (v : Nat)
  | float (v : ℚ)
  | hash (v : Nat)
  | str (v : String)
  | list (cs : List ParamKind)
  | struct (cs : List (Nat × ParamKind))

/-- `is_parent` from `src/comp/tree/tree_data.rs`. -/
def is_parent : ParamKind → Bool
  | .struct _ => true
  | .list _ => true
  | _ => false

/-- A composite param: `Struct` or `List` (glossary). -/
def ParamKind.isComposite (p : ParamKind) : Bool := is_parent p

/-- Child of a composite at an index
(the indexing in `App::current_param`, `src/comp/app.rs`); `none` models
both the out-of-bounds panic and the
`panic!("Only struct or list params can be indexed")`. -/
def paramChild? (p : ParamKind) (i : Nat) : Option ParamKind :=
  match p with
  | .struct cs => (cs[i]?).map (·.2)
  | .list cs => cs[i]?
  | _ => none

/-- Replace the child of a composite at an index (struct keys are kept). -/
def setParamChild (p : ParamKind) (i : Nat) (v : ParamKind) : Option ParamKind :=
  match p with
  | .struct cs => (cs[i]?).map (fun kv => ParamKind.struct (cs.set i (kv.1, v)))
  | .list cs => (cs[i]?).map (fun _ => ParamKind.list (cs.set i v))
  | _ => none

/-- Replace the node at a path of child indices. -/
def updateParamAt (p : ParamKind) (path : List Nat) (v : ParamKind) : Option ParamKind :=
  match path with
  | [] => some v
  | i :: rest => do
      let c ← paramChild? p i
      let c' ← updateParamAt c rest v
      setParamChild p i c'

/-- Read the node at a path of child indices. -/
def paramAtPath (p : ParamKind) (path : List Nat) : Option ParamKind :=
  match path with
  | [] => some p
  | i :: rest => (paramChild? p i).bind (paramAtPath · rest)

/-! ## Row projection (`src/comp/tree/tree_data.rs`) -/

inductive RowKind where
  | bool
  | i8
  | u8
  | i16
  | u16
  | i32
  | u32
  | float
  | hash
  | str
  | list
  | struct
deriving DecidableEq, Repr

/-- `RowKind::from_param`. -/
def RowKind.from_param : ParamKind → RowKind
  | .bool _ => .bool
  | .i8 _ => .i8
  | .u8 _ => .u8
  | .i16 _ => .i16
  | .u16 _ => .u16
  | .i32 _ => .i32
  | .u32 _ => .u32
  | .float _ => .float
  | .hash _ => .hash
  | .str _ => .str
  | .list _ => .list
  | .struct _ => .struct

/-- `RowKind::as_str`. -/
def RowKind.as_str : RowKind → String
  | .bool => "bool"
  | .i8 => "i8"
  | .u8 => "u8"
  | .i16 => "i16"
  | .u16 => "u16"
  | .i32 => "i32"
  | .u32 => "u32"
  | .float => "f32"
  | .hash => "hash"
  | .str => "string"
  | .list => "list"
  | .struct => "struct"

/-- `RowKind::is_number`. -/
def RowKind.is_number : RowKind → Bool
  | .i8 => true
  | .u8 => true
  | .i16 => true
  | .u16 => true
  | .i32 => true
  | .u32 => true
  | .float => true
  | _ => false

/-- `RowKind::is_incremental`. -/
def RowKind.is_incremental (k : RowKind) : Bool :=
  match k with
  | .bool => true
  | _ => k.is_number

/-- `get_value` from `src/comp/tree/tree_data.rs` (`format!("{}", v)` of
each payload; hash display goes through the label corpus). -/
def get_value (lbl : LabelMap) : ParamKind → String
  | .bool v => if v then "true" else "false"
  | .i8 v => toString v
  | .u8 v => toString v
  | .i16 v => toString v
  | .u16 v => toString v
  | .i32 v => toString v
  | .u32 v => toString v
  | .float v => formatFloat v
  | .hash v => hashDisplay lbl v
  | .str v => v
  | .list cs => "(" ++ toString cs.length ++ " children)"
  | .struct cs => "(" ++ toString cs.length ++ " children)"

structure TreeRow where
  index : Nat
  name : String
  kind : RowKind
  value : String
  is_parent : Bool
deriving DecidableEq, Repr

inductive TreeKind where
  | struct
  | list
deriving DecidableEq, Repr

structure TreeData where
  rows : List TreeRow
  kind : TreeKind
deriving DecidableEq, Repr

/-- The enumerated rows of a struct's children
(`s.0.iter().enumerate().map(...)` in `TreeData::new`). -/
def rowsOfStruct (lbl : LabelMap) : Nat → List (Nat × ParamKind) → List TreeRow
  | _, [] => []
  | i, (h, c) :: rest =>
      ⟨i, hashDisplay lbl h, RowKind.from_param c, get_value lbl c, is_parent c⟩
        :: rowsOfStruct lbl (i + 1) rest

/-- The enumerated rows of a list's children. -/
def rowsOfList (lbl : LabelMap) : Nat → List ParamKind → List TreeRow
  | _, [] => []
  | i, c :: rest =>
      ⟨i, toString i, RowKind.from_param c, get_value lbl c, is_parent c⟩
        :: rowsOfList lbl (i + 1) rest

/-- `TreeData::new`; `none` models the
`panic!("Can't create tree data from non-iterable param type")`. -/
def TreeData.new (lbl : LabelMap) : ParamKind → Option TreeData
  | .struct cs => some ⟨rowsOfStruct lbl 0 cs, .struct⟩
  | .list cs => some ⟨rowsOfList lbl 0 cs, .list⟩
  | _ => none

/-- The regex name filter, as the opaque predicate the spec prescribes
(§1: "Regex compilation ... treated as an opaque matches(name) -> bool
predicate"). -/
abbrev FilterPred := String → Bool

/-- `TreeData::apply_filter`. -/
def TreeData.apply_filter (td : TreeData) (filter : Option FilterPred) : TreeData :=
  match filter with
  | some reg => { td with rows := td.rows.filter (fun r => reg r.name) }
  | none => td

/-! ## The text input component (`src/comp/input.rs`)

The tree editor uses the `Input` component (the local copy in
`src/comp/input.rs`; styles are rendering-only and omitted). -/

structure Input where
  value : String
  error : Option String
  focused : Bool
deriving DecidableEq, Repr

def Input.default : Input := ⟨"", none, false⟩

inductive InputResponse where
  | none
  | edited
  | submit
  | cancel
deriving DecidableEq, Repr

/-- `Input::handle_event` (`src/comp/input.rs`). -/
def Input.handle_event (inp : Input) (e : Event) : Input × InputResponse :=
  match e with
  | .key k =>
      match k.code with
      | .char c => ({ inp with value := inp.value.push c }, .edited)
      | .backspace => ({ inp with value := inp.value.dropRight 1 }, .edited)
      | .enter => (inp, .submit)
      | .esc => (inp, .cancel)
      | _ => (inp, .none)
  | .mouse => (inp, .none)

/-! ## Table selection state (tui `TableState`: scroll offset plus an
optional selected row position). -/

structure TableState where
  offset : Nat
  selected : Option Nat
deriving DecidableEq, Repr

def TableState.default : TableState := ⟨0, none⟩

def TableState.select (t : TableState) (s : Option Nat) : TableState :=
  { t with selected := s }

/-! ## The tree component (`src/comp/tree/mod.rs`) -/

structure Tree where
  data : TreeData
  selection : TableState
  focused : Bool
  editing : Option Input
deriving DecidableEq, Repr

/-- `Tree::new`; `none` models the `TreeData::new` panic on a terminal
param. -/
def Tree.new (lbl : LabelMap) (param : ParamKind) (filter : Option FilterPred) :
    Option Tree :=
  (TreeData.new lbl param).map fun d =>
    ⟨d.apply_filter filter, TableState.default.select (some 0), true, none⟩

/-- `Tree::new_with_state`. -/
def Tree.new_with_state (lbl : LabelMap) (param : ParamKind)
    (filter : Option FilterPred) (state : TableState) : Option Tree :=
  (TreeData.new lbl param).map fun d =>
    ⟨d.apply_filter filter, state, true, none⟩

/-- `Tree::index`: `selected().unwrap_or(0)`. -/
def Tree.index (t : Tree) : Nat := t.selection.selected.getD 0

/-- `Tree::current_row`. -/
def Tree.current_row (t : Tree) : Option TreeRow := t.data.rows[t.index]?

/-- `Tree::param_index`: the source index of the currently selected row. -/
def Tree.param_index (t : Tree) : Option Nat := t.current_row.map (·.index)

def Tree.set_index (t : Tree) (new : Nat) : Tree :=
  { t with selection := t.selection.select (some new) }

/-- `Tree::inc`: move the selection down, wrapping at the end. -/
def Tree.inc (t : Tree) : Tree :=
  if t.data.rows.isEmpty || t.index ≥ t.data.rows.length - 1 then
    t.set_index 0
  else
    { t with selection := t.selection.select (some (t.index + 1)) }

/-- `Tree::dec`: move the selection up, wrapping at the start. -/
def Tree.dec (t : Tree) : Tree :=
  if t.data.rows.isEmpty then
    t.set_index 0
  else if t.index = 0 then
    t.set_index (t.data.rows.length - 1)
  else
    { t with selection := t.selection.select (some (t.index - 1)) }

/-- `Tree::select_param_index`: select the row position displaying the
child with the given source index, falling back to 0. -/
def Tree.select_param_index (t : Tree) (index : Nat) : Tree :=
  let pos := (t.data.rows.findIdx? (fun r => r.index == index)).getD 0
  { t with selection := t.selection.select (some pos) }

/-- `Tree::start_editing` (a fresh focused input). -/
def Tree.start_editing (t : Tree) : Tree :=
  { t with editing := some { Input.default with focused := true } }

/-- `Tree::set_editing_error`. -/
def Tree.set_editing_error (t : Tree) (error : Option String) : Tree :=
  match t.editing with
  | some inp => { t with editing := some { inp with error := error } }
  | none => t

/-- `Tree::finish_editing`. -/
def Tree.finish_editing (t : Tree) : Tree := { t with editing := none }

/-- `self.tail.current_row_mut().unwrap().value = ...` in the `SetValue`
arm of `App::handle_event`; `none` models the unwrap panic. -/
def Tree.set_current_row_value (t : Tree) (v : String) : Option Tree :=
  (t.data.rows[t.index]?).map fun row =>
    { t with data := { t.data with rows := t.data.rows.set t.index { row with value := v } } }

inductive TreeResponse where
  | none
  | focus
  | unfocus
  | handled
  | incValue (i : Nat)
  | decValue (i : Nat)
  | setValue (i : Nat) (value : String)
deriving DecidableEq, Repr

/-- `Tree::handle_event` (`src/comp/tree/mod.rs`).  The first case is the
`editing_data()` path: it applies only when an editor is open *and* a row
is currently selected. -/
def Tree.handle_event (t : Tree) (e : Event) : Tree × TreeResponse :=
  match t.editing, t.param_index with
  | some inp, some pidx =>
      let (inp', resp) := inp.handle_event e
      match resp with
      | .submit => ({ t with editing := some inp' }, .setValue pidx inp'.value)
      | .cancel => ({ t with editing := none }, .handled)
      | _ => ({ t with editing := some inp' }, .handled)
  | _, _ =>
      match e with
      | .key k =>
          match k.code with
          | .up =>
              if k.shift then
                match t.current_row with
                | some row =>
                    if row.kind.is_incremental then (t, .incValue row.index)
                    else (t, .handled)
                | none => (t, .handled)
              else (t.dec, .handled)
          | .down =>
              if k.shift then
                match t.current_row with
                | some row =>
                    if row.kind.is_incremental then (t, .decValue row.index)
                    else (t, .handled)
                | none => (t, .handled)
              else (t.inc, .handled)
          | .enter => (t, .focus)
          | .backspace => (t, .unfocus)
          | _ => (t, .none)
      | .mouse => (t, .none)

/-! ## Route bookkeeping (`RouteInfo` in `src/comp/app.rs`) -/

structure RouteInfo where
  table : TableState
  index : Nat
  name : String
deriving DecidableEq, Repr

/-- `RouteInfo::new`: captures the tree's table state and the selected
row's source index and name; `none` models the `current_row().unwrap()`
panic. -/
def RouteInfo.new (tree : Tree) : Option RouteInfo :=
  tree.current_row.map fun row => ⟨tree.selection, row.index, row.name⟩

/-- `RouteInfo::index()` — note: the source returns
`self.table.selected().unwrap()` (the saved *row position*), not the
stored `index` field; `none` models the unwrap panic. -/
def RouteInfo.indexFn (r : RouteInfo) : Option Nat := r.table.selected

/-! ## The regex filter component (`src/comp/filter.rs`)

`regex` holds the compiled filter as the opaque predicate
(`Result<Regex, Error>` with `regex()` returning its `ok()` part); regex
compilation itself is an external collaborator (§1). -/

structure Filter where
  input : Input
  last_input : String
  regex : Option FilterPred

/-- `Filter::regex`. -/
def Filter.regex? (f : Filter) : Option FilterPred := f.regex

/-- `Filter::focus`. -/
def Filter.focus (f : Filter) (b : Bool) : Filter :=
  { f with input := { f.input with focused := b } }

/-! ## The application (`src/comp/app.rs`)

The explorer / confirmation modes delegate to file-dialog components that
are external collaborators (§1: file system traversal is out of scope), so
events arriving in those modes are not modelled; the mode transitions into
them are. -/

inductive AppMode where
  | paramView
  | regexEdit
  | fileOpen
  | confirmOpen
  | confirmExit
deriving DecidableEq, Repr

structure App where
  base : ParamKind
  mode : AppMode
  tail : Tree
  route : List RouteInfo
  filter : Filter
  unsaved : Bool

inductive AppResponse where
  | none
  | exit
deriving DecidableEq, Repr

/-- `App::current_param`: walk the route from the base, indexing each
level by `RouteInfo::index()` (the saved row position). -/
def App.current_param (a : App) : Option ParamKind :=
  a.route.foldlM (fun ptr r => (r.indexFn).bind (paramChild? ptr)) a.base

/-- The child indices a route walks through (`RouteInfo::index()` of each
entry). -/
def routeIdxs : List RouteInfo → Option (List Nat)
  | [] => some []
  | r :: rest => do
      let i ← r.indexFn
      let p ← routeIdxs rest
      some (i :: p)

/-- The list of child indices `App::current_param` walks through. -/
def App.routePath (a : App) : Option (List Nat) :=
  routeIdxs a.route

/-- Parse the editor text for the declared type of a terminal node and
produce the new node (the `parse!` macro arms in the `SetValue` arm of
`App::handle_event`).  Composites are handled separately (they panic in
the source). -/
def parseForChild (child : ParamKind) (text : String) : Option ParamKind :=
  match child with
  | .bool _ => (parseBool text).map .bool
  | .i8 _ => (parseSigned (-128) 127 text).map .i8
  | .u8 _ => (parseUnsigned 255 text).map .u8
  | .i16 _ => (parseSigned (-32768) 32767 text).map .i16
  | .u16 _ => (parseUnsigned 65535 text).map .u16
  | .i32 _ => (parseSigned (-2147483648) 2147483647 text).map .i32
  | .u32 _ => (parseUnsigned 4294967295 text).map .u32
  | .float _ => (parseFloat text).map .float
  | .hash _ => (fromHexStr text).map .hash
  | .str _ => some (.str text)
  | _ => none

/-- `App::handle_event` (`src/comp/app.rs`), restricted to the modes whose
behavior lives in this repository.  A `none` result models a panic — and,
in the `IncValue`/`DecValue` cases, the *missing* match arms: the source
match over `TreeResponse` has no arm for them. -/
def App.handle_event (lbl : LabelMap) (a : App) (e : Event) :
    Option (App × AppResponse) :=
  match a.mode with
  | .paramView =>
      let (tail₁, resp) := a.tail.handle_event e
      let a₁ : App := { a with tail := tail₁ }
      match resp with
      | .focus =>
          match a₁.tail.current_row with
          | some row =>
              if row.is_parent then do
                let ri ← RouteInfo.new a₁.tail
                let a₂ := { a₁ with route := a₁.route ++ [ri] }
                let p ← a₂.current_param
                let t ← Tree.new lbl p a₂.filter.regex?
                some ({ a₂ with tail := t }, .none)
              else
                some ({ a₁ with tail := a₁.tail.start_editing }, .none)
          | none => some (a₁, .none)
      | .unfocus =>
          match a₁.route.getLast? with
          | some last => do
              let a₂ := { a₁ with route := a₁.route.dropLast }
              let p ← a₂.current_param
              let t ← Tree.new_with_state lbl p a₂.filter.regex? last.table
              some ({ a₂ with tail := t.select_param_index last.index }, .none)
          | none => some (a₁, .none)
      | .setValue index text => do
          let parent ← a₁.current_param
          let child ← paramChild? parent index
          if child.isComposite then
            none
          else
            match parseForChild child text with
            | some newChild => do
                let path ← a₁.routePath
                let base' ← updateParamAt a₁.base (path ++ [index]) newChild
                let tail' ← a₁.tail.set_current_row_value (get_value lbl newChild)
                some ({ a₁ with base := base', tail := tail'.finish_editing, unsaved := true }, .none)
            | none =>
                some ({ a₁ with
                        tail := a₁.tail.set_editing_error (some "[Parse error]") },
                      .none)
      | .handled => some (a₁, .none)
      | .incValue _ => none
      | .decValue _ => none
      | .none =>
          match e with
          | .key k =>
              match k.code with
              | .char '/' =>
                  some ({ a₁ with mode := .regexEdit,
                                  filter := a₁.filter.focus true,
                                  tail := { a₁.tail with focused := false } }, .none)
              | .char 'o' =>
                  if k.ctrl then
                    if a₁.unsaved then some ({ a₁ with mode := .confirmOpen }, .none)
                    else some ({ a₁ with mode := .fileOpen }, .none)
                  else some (a₁, .none)
              | .char 's' =>
                  if k.ctrl then some ({ a₁ with mode := .fileOpen }, .none)
                  else some (a₁, .none)
              | .esc =>
                  if a₁.unsaved then some ({ a₁ with mode := .confirmExit }, .none)
                  else some (a₁, .exit)
              | _ => some (a₁, .none)
          | .mouse => some (a₁, .none)
  | _ => none

/-! ## The hash editor (`src/components/hash_input.rs`)

The component holds an `Arc<Mutex<BTreeSet<String>>>` of sorted labels and
consults the process-global `Hash40::label_map()`.  Both shared resources
are embedded as an explicit environment: the corpus contents (the BTreeSet
iterates in ascending order) plus a poisoned flag for each lock. -/

/-- Strict lexicographic order on character lists (the order of Rust's
`BTreeSet<String>` iteration: `String` compares lexicographically). -/
def charListLt : List Char → List Char → Bool
  | [], [] => false
  | [], _ :: _ => true
  | _ :: _, [] => false
  | a :: as, b :: bs =>
      if a < b then true
      else if b < a then false
      else charListLt as bs

/-- Lexicographic less-or-equal on character lists. -/
def charListLe : List Char → List Char → Bool
  | [], _ => true
  | _ :: _, [] => false
  | a :: as, b :: bs =>
      if a < b then true
      else if b < a then false
      else charListLe as bs

/-- Lexicographic strict order on strings. -/
def strLt (a b : String) : Bool := charListLt a.data b.data

/-- Lexicographic order on strings (the `BTreeSet` / Rust `String` order). -/
def strLe (a b : String) : Bool := charListLe a.data b.data

/-- Rust `str::starts_with` on the model's strings. -/
def strStartsWith (s pref : String) : Bool := pref.data.isPrefixOf s.data

/-- The test `self.value.starts_with("0x")`. -/
def startsWith0x (s : String) : Bool :=
  match s.data with
  | '0' :: 'x' :: _ => true
  | _ => false

structure LabelEnv where
  labelMap : LabelMap
  mapPoisoned : Bool
  sorted_labels : List String
  sortedPoisoned : Bool

structure HashInput where
  value : String
  return_value : Nat
  matchList : List String
  matchNum : Option Nat
deriving DecidableEq, Repr

inductive Validity where
  | labelExists (h : Nat)
  | labelNotExists (h : Nat)
  | labelsPoisoned (h : Nat)
  | hash (h : Nat)
  | hashInvalid
deriving DecidableEq, Repr

/-- `HashInput::status`. -/
def HashInput.status (hi : HashInput) (env : LabelEnv) : Validity :=
  if startsWith0x hi.value then
    match fromHexStr hi.value with
    | some h => .hash h
    | none => .hashInvalid
  else if env.mapPoisoned then
    .labelsPoisoned (hash40 hi.value)
  else
    match hashOfLabel env.labelMap hi.value with
    | some h => .labelExists h
    | none => .labelNotExists (hash40 hi.value)

/-- The match scan in `HashInput::update_matches`:
`sorted_labels.range(prefix..).take(1000).take_while(starts_with prefix)`.
A BTreeSet range iterates, in ascending order, the elements `≥ prefix`. -/
def computeMatches (env : LabelEnv) (pref : String) : List String :=
  ((env.sorted_labels.filter (fun l => strLe pref l)).take 1000).takeWhile
    (fun l => strStartsWith l pref)

/-- `HashInput::update_matches`. -/
def HashInput.update_matches (hi : HashInput) (env : LabelEnv) : HashInput :=
  match hi.status env with
  | .labelExists _ | .labelNotExists _ =>
      if env.sortedPoisoned then
        { hi with matchList := [], matchNum := none }
      else
        let ms := computeMatches env hi.value
        match hi.status env, ms with
        | .labelNotExists _, _ :: _ => { hi with matchList := ms, matchNum := some 0 }
        | _, _ => { hi with matchList := ms, matchNum := none }
  | _ => { hi with matchList := [], matchNum := none }

/-- `HashInput::current_match`. -/
def HashInput.current_match (hi : HashInput) : Option String :=
  hi.matchNum.bind (fun n => hi.matchList[n]?)

/-- `HashInput::new`. -/
def HashInput.new (env : LabelEnv) (h : Nat) : HashInput :=
  HashInput.update_matches
    { value := hashDisplay env.labelMap h, return_value := h,
      matchList := [], matchNum := none } env

inductive HashInputResponse where
  | none
  | handled
  | submit
  | cancel
deriving DecidableEq, Repr

/-- `HashInput::handle_event` (`Component` impl in
`src/components/hash_input.rs`). -/
def HashInput.handle_event (hi : HashInput) (env : LabelEnv) (e : Event) :
    HashInput × HashInputResponse :=
  match e with
  | .key k =>
      match k.code with
      | .char c =>
          (HashInput.update_matches { hi with value := hi.value.push c } env, .handled)
      | .backspace =>
          (HashInput.update_matches { hi with value := hi.value.dropRight 1 } env, .handled)
      | .down =>
          if hi.matchList.isEmpty then ({ hi with matchNum := none }, .handled)
          else
            match hi.matchNum with
            | some cur =>
                if cur < hi.matchList.length - 1 then
                  ({ hi with matchNum := some (cur + 1) }, .handled)
                else (hi, .handled)
            | none => ({ hi with matchNum := some 0 }, .handled)
      | .up =>
          if hi.matchList.isEmpty then ({ hi with matchNum := none }, .handled)
          else
            match hi.matchNum with
            | some cur =>
                if cur > 0 then ({ hi with matchNum := some (cur - 1) }, .handled)
                else (hi, .handled)
            | none => (hi, .handled)
      | .tab =>
          match hi.current_match with
          | some m => (HashInput.update_matches { hi with value := m } env, .handled)
          | none => (hi, .handled)
      | .enter =>
          match hi.status env with
          | .hash h => ({ hi with return_value := h }, .submit)
          | .labelExists h => ({ hi with return_value := h }, .submit)
          | .labelNotExists h => ({ hi with return_value := h }, .submit)
          | .labelsPoisoned h => ({ hi with return_value := h }, .submit)
          | .hashInvalid => (hi, .none)
      | .esc => (hi, .cancel)
      | _ => (hi, .none)
  | .mouse => (hi, .none)

/-! ## Claim C10: exact modular arithmetic in `src/utils/modulo.rs` -/

/-- C10: for all machine-width unsigned `a`, `b`, `m` with `m > 0`,
`add_mod a b m` is exactly `(a + b) % m` and `sub_mod a b m` is exactly
the mathematical `(a - b) mod m`, with no intermediate operation
overflowing or underflowing (a `some` result means every checked machine
operation, including those of the complement-based branch, stayed in
range). -/
theorem modulo_add_sub_exact (w a b m : Nat) (hm : 0 < m) (ha : a ≤ 2 ^ w - 1)
    (hb : b ≤ 2 ^ w - 1) (hmw : m ≤ 2 ^ w - 1) :
    add_mod w a b m = some ((a + b) % m) ∧
    ∃ r, sub_mod w a b m = some r ∧ r < m ∧
      (r : Int) = ((a : Int) - (b : Int)) % (m : Int) :=
  ⟨add_mod_exact w a b m hm hb hmw, sub_mod_exact w a b m hm hmw⟩

theorem modulo_add_sub_exact_witness :
    add_mod 8 200 100 7 = some ((200 + 100) % 7) ∧
    ∃ r, sub_mod 8 200 100 7 = some r ∧ r < 7 ∧
      (r : Int) = ((200 : Int) - (100 : Int)) % (7 : Int) :=
  modulo_add_sub_exact 8 200 100 7 (by decide) (by decide) (by decide) (by decide)

/-! ## Claim C9: wrap-around selection in `Tree::inc` / `Tree::dec` -/

/-- C9: at a level with `n ≥ 1` rows, a move-down command at the last row
wraps the selection to row 0 and a move-up command at row 0 wraps it to
row `n - 1`; elsewhere they move by one. -/
theorem selection_wraparound (t : Tree) (n p : Nat)
    (hn : t.data.rows.length = n) (h1 : 1 ≤ n)
    (hsel : t.selection.selected = some p) (hp : p < n) :
    (t.inc).selection.selected = some (if p = n - 1 then 0 else p + 1) ∧
    (t.dec).selection.selected = some (if p = 0 then n - 1 else p - 1) := by
  have hidx : t.index = p := by simp [Tree.index, hsel]
  have hemp : t.data.rows.isEmpty = false := by
    cases hrows : t.data.rows with
    | nil => simp [hrows] at hn; omega
    | cons x xs => simp [hrows]
  constructor
  · unfold Tree.inc
    split
    · next h =>
        have hlast : p = n - 1 := by
          simp [hemp, hidx, hn] at h
          omega
        simp [Tree.set_index, TableState.select, hlast]
    · next h =>
        have hlast : p ≠ n - 1 := by
          simp [hemp, hidx, hn] at h
          omega
        simp [TableState.select, hidx, hlast]
  · unfold Tree.dec
    split
    · next h =>
        simp [hemp] at h
    · split
      · next h =>
          have hz : p = 0 := by
            simpa [hidx] using h
          simp [Tree.set_index, TableState.select, hz, hn]
      · next h =>
          have hz : p ≠ 0 := by
            simpa [hidx] using h
          simp [TableState.select, hidx, hz]

theorem selection_wraparound_witness :
    ((⟨⟨[⟨0, "0", .bool, "true", false⟩, ⟨1, "1", .bool, "true", false⟩,
        ⟨2, "2", .bool, "true", false⟩], .list⟩, ⟨0, some 2⟩, true, none⟩ : Tree).inc.selection.selected
      = some (if 2 = 3 - 1 then 0 else 2 + 1) ∧
     (⟨⟨[⟨0, "0", .bool, "true", false⟩, ⟨1, "1", .bool, "true", false⟩,
        ⟨2, "2", .bool, "true", false⟩], .list⟩, ⟨0, some 2⟩, true, none⟩ : Tree).dec.selection.selected
      = some (if 2 = 0 then 3 - 1 else 2 - 1)) :=
  selection_wraparound _ 3 2 (by decide) (by decide) (by decide) (by decide)

/-! ## Claim C2: navigation after `Enter` indexes by row position, not by
the row's source index (`RouteInfo::index()` in `src/comp/app.rs`).

Concrete scenario: a struct with children `A : u32` (source index 0) and
`B : struct` (source index 1), and an active filter matching only `"B"`.
The single visible row displays child `B` (`source_index` 1, composite)
at row position 0.  Pressing Enter pushes a `RouteInfo` and then builds
the new level from `current_param()`, which walks
`RouteInfo::index() = table.selected() = 0` — child `A`, a terminal —
so `TreeData::new` panics instead of entering child `B`. -/

def c2lbl : LabelMap := [(1, "A"), (2, "B"), (3, "C")]

def c2base : ParamKind := .struct [(1, .u32 7), (2, .struct [(3, .bool true)])]

def c2filt : Option FilterPred := some (fun n => n == "B")

def c2tree : Tree :=
  ⟨⟨[⟨1, "B", .struct, "(1 children)", true⟩], .struct⟩, ⟨0, some 0⟩, true, none⟩

def c2app : App := ⟨c2base, .paramView, c2tree, [], ⟨Input.default, "", c2filt⟩, false⟩

/-- C2 (code bug): with an active filter, the selected row displays the
composite child of source index 1, yet handling Enter walks the route by
the row position 0 — reaching the terminal child `A` and panicking
(`none`) — instead of entering the displayed child. -/
theorem enter_uses_row_position_not_source_index :
    Tree.new c2lbl c2base c2filt = some c2tree ∧
    c2tree.current_row = some ⟨1, "B", .struct, "(1 children)", true⟩ ∧
    paramChild? c2base 0 = some (.u32 7) ∧
    is_parent (.u32 7) = false ∧
    App.handle_event c2lbl c2app (keyPress .enter) = none := by
  refine ⟨by decide, by decide, rfl, rfl, rfl⟩

/-! ## Claim C8: the increment/decrement shortcuts are emitted but never
dispatched.

`Tree::handle_event` answers Shift+Up / Shift+Down on an incremental row
with `IncValue(i)` / `DecValue(i)`, but the match over `TreeResponse` in
`App::handle_event` (src/comp/app.rs, the `ParamView` arm) has no arm for
either response, so no value is ever cycled. -/

def c8lbl : LabelMap := [(1, "flag")]

def c8base : ParamKind := .struct [(1, .bool true)]

def c8tree : Tree :=
  ⟨⟨[⟨0, "flag", .bool, "true", false⟩], .struct⟩, ⟨0, some 0⟩, true, none⟩

def c8app : App := ⟨c8base, .paramView, c8tree, [], ⟨Input.default, "", none⟩, false⟩

/-- C8 (code bug): on a Bool row, Shift+Up (resp. Shift+Down) makes the
tree emit `IncValue 0` (resp. `DecValue 0`) without entering edit mode,
but the application dispatch has no transition for these responses
(`none`: the source match is missing both arms), so the stored value is
never cycled. -/
theorem inc_dec_shortcut_not_dispatched :
    Tree.new c8lbl c8base none = some c8tree ∧
    c8tree.handle_event (.key ⟨.up, true, false⟩) = (c8tree, .incValue 0) ∧
    c8tree.handle_event (.key ⟨.down, true, false⟩) = (c8tree, .decValue 0) ∧
    App.handle_event c8lbl c8app (.key ⟨.up, true, false⟩) = none ∧
    App.handle_event c8lbl c8app (.key ⟨.down, true, false⟩) = none := by
  refine ⟨by decide, by decide, by decide, rfl, rfl⟩

/-! ## Claim C4: source-index stability under filtering -/

theorem rowsOfStruct_getElem? (lbl : LabelMap) (cs : List (Nat × ParamKind)) :
    ∀ (i k : Nat), (rowsOfStruct lbl i cs)[k]? =
      (cs[k]?).map (fun hc =>
        ⟨i + k, hashDisplay lbl hc.1, RowKind.from_param hc.2,
         get_value lbl hc.2, is_parent hc.2⟩) := by
  induction cs with
  | nil => intro i k; simp [rowsOfStruct]
  | cons hc rest ih =>
      intro i k
      cases k with
      | zero => simp [rowsOfStruct]
      | succ k =>
          simp only [rowsOfStruct, List.getElem?_cons_succ, ih (i + 1) k]
          have : i + 1 + k = i + (k + 1) := by omega
          rw [this]

theorem rowsOfList_getElem? (lbl : LabelMap) (cs : List ParamKind) :
    ∀ (i k : Nat), (rowsOfList lbl i cs)[k]? =
      (cs[k]?).map (fun c =>
        ⟨i + k, toString (i + k), RowKind.from_param c,
         get_value lbl c, is_parent c⟩) := by
  induction cs with
  | nil => intro i k; simp [rowsOfList]
  | cons c rest ih =>
      intro i k
      cases k with
      | zero => simp [rowsOfList]
      | succ k =>
          simp only [rowsOfList, List.getElem?_cons_succ, ih (i + 1) k]
          have : i + 1 + k = i + (k + 1) := by omega
          rw [this]

theorem rowsOfStruct_map_index (lbl : LabelMap) (cs : List (Nat × ParamKind)) :
    ∀ i, (rowsOfStruct lbl i cs).map (·.index) = List.range' i cs.length := by
  induction cs with
  | nil => intro i; simp [rowsOfStruct]
  | cons hc rest ih =>
      intro i
      simp [rowsOfStruct, ih (i + 1), List.range'_succ]

theorem rowsOfList_map_index (lbl : LabelMap) (cs : List ParamKind) :
    ∀ i, (rowsOfList lbl i cs).map (·.index) = List.range' i cs.length := by
  induction cs with
  | nil => intro i; simp [rowsOfList]
  | cons c rest ih =>
      intro i
      simp [rowsOfList, ih (i + 1), List.range'_succ]

/-- The rows of a freshly projected level carry strictly increasing source
indices. -/
theorem treeDataNew_rows_pairwise (lbl : LabelMap) (p : ParamKind) (td : TreeData)
    (htd : TreeData.new lbl p = some td) :
    td.rows.Pairwise (fun a b => a.index < b.index) := by
  have key : ∀ (rows : List TreeRow) (i n : Nat),
      rows.map (·.index) = List.range' i n →
      rows.Pairwise (fun a b => a.index < b.index) := by
    intro rows i n hmap
    have := List.pairwise_lt_range' i n
    rw [← hmap] at this
    exact (List.pairwise_map).mp this
  cases p with
  | struct cs =>
      simp only [TreeData.new, Option.some.injEq] at htd
      subst htd
      exact key _ 0 cs.length (rowsOfStruct_map_index lbl cs 0)
  | list cs =>
      simp only [TreeData.new, Option.some.injEq] at htd
      subst htd
      exact key _ 0 cs.length (rowsOfList_map_index lbl cs 0)
  | bool v => simp [TreeData.new] at htd
  | i8 v => simp [TreeData.new] at htd
  | u8 v => simp [TreeData.new] at htd
  | i16 v => simp [TreeData.new] at htd
  | u16 v => simp [TreeData.new] at htd
  | i32 v => simp [TreeData.new] at htd
  | u32 v => simp [TreeData.new] at htd
  | float v => simp [TreeData.new] at htd
  | hash v => simp [TreeData.new] at htd
  | str v => simp [TreeData.new] at htd

/-- In a freshly projected level, each row's `index` is its position in the
row list. -/
theorem treeDataNew_rows_index_position (lbl : LabelMap) (p : ParamKind)
    (td : TreeData) (htd : TreeData.new lbl p = some td) :
    ∀ (k : Nat) (r : TreeRow), td.rows[k]? = some r → r.index = k := by
  cases p with
  | struct cs =>
      simp only [TreeData.new, Option.some.injEq] at htd
      subst htd
      intro k r hk
      rw [rowsOfStruct_getElem? lbl cs 0 k] at hk
      cases hcs : cs[k]? with
      | none => rw [hcs] at hk; simp at hk
      | some hc =>
          rw [hcs] at hk
          simp only [Option.map_some', Option.some.injEq] at hk
          rw [← hk]
          simp
  | list cs =>
      simp only [TreeData.new, Option.some.injEq] at htd
      subst htd
      intro k r hk
      rw [rowsOfList_getElem? lbl cs 0 k] at hk
      cases hcs : cs[k]? with
      | none => rw [hcs] at hk; simp at hk
      | some c =>
          rw [hcs] at hk
          simp only [Option.map_some', Option.some.injEq] at hk
          rw [← hk]
          simp
  | bool v => simp [TreeData.new] at htd
  | i8 v => simp [TreeData.new] at htd
  | u8 v => simp [TreeData.new] at htd
  | i16 v => simp [TreeData.new] at htd
  | u16 v => simp [TreeData.new] at htd
  | i32 v => simp [TreeData.new] at htd
  | u32 v => simp [TreeData.new] at htd
  | float v => simp [TreeData.new] at htd
  | hash v => simp [TreeData.new] at htd
  | str v => simp [TreeData.new] at htd

/-- C4: for any composite level and any filter predicate, the surviving
rows keep strictly increasing source indices (their relative document
order), each surviving row is the `source_index`-th row of the unfiltered
projection; and for children `[A, B, C, D]` with a filter matching only
`B` and `D`, the surviving rows report source indices `[1, 3]`. -/
theorem source_index_stable_under_filter (lbl : LabelMap) (p : ParamKind)
    (pred : FilterPred) (td : TreeData) (htd : TreeData.new lbl p = some td) :
    (((td.apply_filter (some pred)).rows.map (·.index)).Pairwise (· < ·) ∧
     ∀ r ∈ (td.apply_filter (some pred)).rows, td.rows[r.index]? = some r) ∧
    (TreeData.new [(1, "A"), (2, "B"), (3, "C"), (4, "D")]
        (.struct [(1, .u32 10), (2, .u32 20), (3, .u32 30), (4, .u32 40)])).map
      (fun t => (t.apply_filter (some fun n => n == "B" || n == "D")).rows.map (·.index))
      = some [1, 3] := by
  refine ⟨⟨?_, ?_⟩, by decide⟩
  · have hpw := (treeDataNew_rows_pairwise lbl p td htd).filter
      (fun r => pred r.name)
    exact (List.pairwise_map).mpr hpw
  · intro r hr
    have hmem : r ∈ td.rows := List.mem_of_mem_filter hr
    obtain ⟨k, hk⟩ := List.getElem?_of_mem hmem
    have hik : r.index = k := treeDataNew_rows_index_position lbl p td htd k r hk
    rw [hik]
    exact hk

theorem source_index_stable_under_filter_witness :
    ((((⟨rowsOfStruct [(1, "A")] 0 [(1, .bool true)], .struct⟩ : TreeData).apply_filter
        (some fun n => n == "A")).rows.map (·.index)).Pairwise (· < ·) ∧
     ∀ r ∈ ((⟨rowsOfStruct [(1, "A")] 0 [(1, .bool true)], .struct⟩ : TreeData).apply_filter
        (some fun n => n == "A")).rows,
       (⟨rowsOfStruct [(1, "A")] 0 [(1, .bool true)], .struct⟩ : TreeData).rows[r.index]?
         = some r) ∧
    (TreeData.new [(1, "A"), (2, "B"), (3, "C"), (4, "D")]
        (.struct [(1, .u32 10), (2, .u32 20), (3, .u32 30), (4, .u32 40)])).map
      (fun t => (t.apply_filter (some fun n => n == "B" || n == "D")).rows.map (·.index))
      = some [1, 3] :=
  source_index_stable_under_filter [(1, "A")] (.struct [(1, .bool true)])
    (fun n => n == "A") ⟨rowsOfStruct [(1, "A")] 0 [(1, .bool true)], .struct⟩ rfl

/-! ## Claim C5: submitting the hash editor -/

/-- C5: submitting (Enter) succeeds for every input that is not a
malformed hex literal, storing the resolved hash in `return_value`: a
valid hex literal resolves to its value, a registered label to its
registered hash, an unknown label to the derived hash of the raw text,
and a poisoned label corpus still resolves to the derived hash; only a
malformed `0x...` literal keeps the editor unsubmitted (and unchanged). -/
theorem hash_submit_total (env : LabelEnv) (hi : HashInput) :
    (startsWith0x hi.value = true → fromHexStr hi.value = none →
       hi.handle_event env (keyPress .enter) = (hi, .none)) ∧
    (∀ h, startsWith0x hi.value = true → fromHexStr hi.value = some h →
       hi.handle_event env (keyPress .enter) = ({ hi with return_value := h }, .submit)) ∧
    (startsWith0x hi.value = false → env.mapPoisoned = true →
       hi.handle_event env (keyPress .enter)
         = ({ hi with return_value := hash40 hi.value }, .submit)) ∧
    (∀ h, startsWith0x hi.value = false → env.mapPoisoned = false →
       hashOfLabel env.labelMap hi.value = some h →
       hi.handle_event env (keyPress .enter) = ({ hi with return_value := h }, .submit)) ∧
    (startsWith0x hi.value = false → env.mapPoisoned = false →
       hashOfLabel env.labelMap hi.value = none →
       hi.handle_event env (keyPress .enter)
         = ({ hi with return_value := hash40 hi.value }, .submit)) := by
  refine ⟨?_, ?_, ?_, ?_, ?_⟩
  · intro h0 hhex
    simp [HashInput.handle_event, HashInput.status, keyPress, h0, hhex]
  · intro h h0 hhex
    simp [HashInput.handle_event, HashInput.status, keyPress, h0, hhex]
  · intro h0 hpois
    simp [HashInput.handle_event, HashInput.status, keyPress, h0, hpois]
  · intro h h0 hpois hlab
    simp [HashInput.handle_event, HashInput.status, keyPress, h0, hpois, hlab]
  · intro h0 hpois hlab
    simp [HashInput.handle_event, HashInput.status, keyPress, h0, hpois, hlab]

theorem hash_submit_total_witness :
    (⟨"abc", 0, [], none⟩ : HashInput).handle_event ⟨[], true, [], false⟩
        (keyPress .enter)
      = ({ (⟨"abc", 0, [], none⟩ : HashInput) with return_value := hash40 "abc" },
         .submit) :=
  (hash_submit_total ⟨[], true, [], false⟩ ⟨"abc", 0, [], none⟩).2.2.1 (by decide) rfl

/-! ## Claim C7: cursor behavior on text changes

The claim says the candidate cursor resets to "none selected" on every
text change; `update_matches` instead sets it to the *first candidate*
when the new text is an unregistered label with a nonempty match list. -/

def c7env : LabelEnv := ⟨[(hash40 "alpha", "alpha")], false, ["alpha"], false⟩

def c7hi : HashInput := ⟨"", 0, [], none⟩

/-- C7 counterexample: with corpus `{"alpha"}` and empty input, typing `a`
leaves the candidate cursor pointing at the first match (`some 0`), not at
"none selected". -/
theorem cursor_not_reset_counterexample :
    ((c7hi.handle_event c7env (keyPress (.char 'a'))).1).matchNum = some 0 ∧
    ((c7hi.handle_event c7env (keyPress (.char 'a'))).1).matchNum ≠ none := by
  exact ⟨by decide, by decide⟩

/-- After `update_matches` the cursor is `some 0` exactly when the (text's)
status is an unregistered label and the recomputed match list is nonempty;
otherwise it is `none`. -/
theorem update_matches_matchNum (env : LabelEnv) (hi : HashInput) :
    ((hi.update_matches env).matchNum
      = match (hi.update_matches env).status env, (hi.update_matches env).matchList with
        | .labelNotExists _, _ :: _ => some 0
        | _, _ => none) ∧
    (hi.update_matches env).value = hi.value := by
  have hval : ∀ (ml : List String) (mn : Option Nat),
      ({ hi with matchList := ml, matchNum := mn } : HashInput).status env
        = hi.status env := fun _ _ => rfl
  cases hstat : hi.status env with
  | labelExists h =>
      by_cases hpois : env.sortedPoisoned
      · simp [HashInput.update_matches, hstat, hpois, hval]
      · simp [HashInput.update_matches, hstat, hpois, hval]
  | labelNotExists h =>
      by_cases hpois : env.sortedPoisoned
      · simp [HashInput.update_matches, hstat, hpois, hval]
      · cases hms : computeMatches env hi.value with
        | nil => simp [HashInput.update_matches, hstat, hpois, hms, hval]
        | cons x xs => simp [HashInput.update_matches, hstat, hpois, hms, hval]
  | labelsPoisoned h => simp [HashInput.update_matches, hstat, hval]
  | hash h => simp [HashInput.update_matches, hstat, hval]
  | hashInvalid => simp [HashInput.update_matches, hstat, hval]

/-- C7 as amended: any event that changes the input text (a typed or a
deleted character) recomputes the matches and leaves the cursor at "none
selected" *unless* the new text is an unregistered (non-hex) label with a
nonempty match list, in which case the cursor is set to the first
candidate (`some 0`). -/
theorem cursor_reset_on_text_change (env : LabelEnv) (hi : HashInput) (e : Event)
    (he : (∃ c, e = keyPress (.char c)) ∨ e = keyPress .backspace) :
    ((hi.handle_event env e).1).matchNum
      = match ((hi.handle_event env e).1).status env,
              ((hi.handle_event env e).1).matchList with
        | .labelNotExists _, _ :: _ => some 0
        | _, _ => none := by
  rcases he with ⟨c, rfl⟩ | rfl
  · simpa [HashInput.handle_event, keyPress] using
      (update_matches_matchNum env { hi with value := hi.value.push c }).1
  · simpa [HashInput.handle_event, keyPress] using
      (update_matches_matchNum env { hi with value := hi.value.dropRight 1 }).1

theorem cursor_reset_on_text_change_witness :
    ((c7hi.handle_event c7env (keyPress (.char 'a'))).1).matchNum
      = match ((c7hi.handle_event c7env (keyPress (.char 'a'))).1).status c7env,
              ((c7hi.handle_event c7env (keyPress (.char 'a'))).1).matchList with
        | .labelNotExists _, _ :: _ => some 0
        | _, _ => none :=
  cursor_reset_on_text_change c7env c7hi (keyPress (.char 'a')) (Or.inl ⟨'a', rfl⟩)

/-! ## Claim C6: autocomplete returns exactly the prefix matches -/

theorem charListLt_le {a b : List Char} (h : charListLt a b = true) :
    charListLe a b = true := by
  induction a generalizing b with
  | nil => cases b <;> simp [charListLe]
  | cons x as ih =>
      cases b with
      | nil => simp [charListLt] at h
      | cons y bs =>
          by_cases h1 : x < y
          · simp [charListLe, h1]
          · by_cases h2 : y < x
            · simp [charListLt, h1, h2] at h
            · simp [charListLt, h1, h2] at h
              simp [charListLe, h1, h2, ih h]

theorem isPrefixOf_charListLe :
    ∀ (t y : List Char), t.isPrefixOf y = true → charListLe t y = true := by
  intro t
  induction t with
  | nil => intro y _; simp [charListLe]
  | cons c t' ih =>
      intro y hp
      cases y with
      | nil => simp [List.isPrefixOf] at hp
      | cons d y' =>
          simp only [List.isPrefixOf, Bool.and_eq_true, beq_iff_eq] at hp
          obtain ⟨rfl, hp'⟩ := hp
          simp [charListLe, lt_irrefl, ih y' hp']

/-- A string lexicographically between a prefix `t` and a `t`-prefixed
string is itself `t`-prefixed. -/
theorem isPrefixOf_of_between :
    ∀ (t x y : List Char), charListLe t x = true → charListLe x y = true →
      t.isPrefixOf y = true → t.isPrefixOf x = true := by
  intro t
  induction t with
  | nil => intro x y _ _ _; simp [List.isPrefixOf]
  | cons c t' ih =>
      intro x y htx hxy hpre
      cases x with
      | nil => simp [charListLe] at htx
      | cons d x' =>
          cases y with
          | nil => simp [charListLe] at hxy
          | cons e y' =>
              simp only [List.isPrefixOf, Bool.and_eq_true, beq_iff_eq] at hpre
              obtain ⟨rfl, hpre'⟩ := hpre
              by_cases h1 : c < d
              · exfalso
                have h2 : ¬ d < c := lt_asymm h1
                simp [charListLe, h1, h2] at hxy
              · by_cases h2 : d < c
                · exfalso
                  simp [charListLe, h1, h2] at htx
                · have hdc : d = c := le_antisymm (not_lt.mp h1) (not_lt.mp h2)
                  subst hdc
                  simp only [charListLe, lt_irrefl, if_false] at htx hxy
                  simp [List.isPrefixOf, ih x' y' htx hxy hpre']

theorem strStartsWith_strLe {t y : String} (h : strStartsWith y t = true) :
    strLe t y = true :=
  isPrefixOf_charListLe t.data y.data h

theorem strStartsWith_of_between {t x y : String} (htx : strLe t x = true)
    (hxy : strLe x y = true) (hy : strStartsWith y t = true) :
    strStartsWith x t = true :=
  isPrefixOf_of_between t.data x.data y.data htx hxy hy

theorem takeWhile_take_comm {α : Type} (p : α → Bool) :
    ∀ (l : List α) (n : Nat), (l.take n).takeWhile p = (l.takeWhile p).take n := by
  intro l
  induction l with
  | nil => intro n; simp
  | cons a l ih =>
      intro n
      cases n with
      | zero => simp
      | succ n =>
          by_cases hp : p a
          · simp [List.takeWhile_cons, hp, ih n]
          · simp [List.takeWhile_cons, hp]

/-- In an ascending list all of whose elements are `≥ t`, the `t`-prefixed
elements form an initial segment: `takeWhile` equals `filter`. -/
theorem takeWhile_eq_filter_of_sorted (t : String) :
    ∀ (M : List String), M.Pairwise (fun a b => strLe a b = true) →
      (∀ x ∈ M, strLe t x = true) →
      M.takeWhile (fun l => strStartsWith l t)
        = M.filter (fun l => strStartsWith l t) := by
  intro M
  induction M with
  | nil => intro _ _; rfl
  | cons x M' ih =>
      intro hpw hmem
      rw [List.pairwise_cons] at hpw
      by_cases hP : strStartsWith x t = true
      · simp only [List.takeWhile_cons, List.filter_cons, hP, if_true]
        rw [ih hpw.2 (fun y hy => hmem y (List.mem_cons_of_mem x hy))]
      · have hP' : strStartsWith x t = false := by
          cases h : strStartsWith x t
          · rfl
          · exact absurd h hP
        simp only [List.takeWhile_cons, List.filter_cons, hP', if_false]
        have hnil : M'.filter (fun l => strStartsWith l t) = [] := by
          rw [List.filter_eq_nil_iff]
          intro y hy hyP
          exact hP (strStartsWith_of_between (hmem x (List.mem_cons_self x M'))
            (hpw.1 y hy) hyP)
        rw [hnil]
        simp

/-- C6 (general part): on an ascending corpus, the match scan returns
exactly the labels with the input text as a prefix, in ascending order,
capped at the limit of 1000. -/
theorem computeMatches_eq (env : LabelEnv) (text : String)
    (hs : env.sorted_labels.Pairwise (fun a b => strLt a b = true)) :
    computeMatches env text
      = (env.sorted_labels.filter (fun l => strStartsWith l text)).take 1000 ∧
    (computeMatches env text).Pairwise (fun a b => strLt a b = true) := by
  have hsle : env.sorted_labels.Pairwise (fun a b => strLe a b = true) :=
    hs.imp (fun h => charListLt_le h)
  have hM : (env.sorted_labels.filter (fun l => strLe text l)).Pairwise
      (fun a b => strLe a b = true) := hsle.filter _
  have hMmem : ∀ x ∈ env.sorted_labels.filter (fun l => strLe text l),
      strLe text x = true := by
    intro x hx
    exact (List.mem_filter.mp hx).2
  have heq : computeMatches env text
      = (env.sorted_labels.filter (fun l => strStartsWith l text)).take 1000 := by
    unfold computeMatches
    rw [takeWhile_take_comm, takeWhile_eq_filter_of_sorted text _ hM hMmem,
      List.filter_filter]
    congr 1
    apply List.filter_congr
    intro a _
    cases hPa : strStartsWith a text
    · simp
    · simp [strStartsWith_strLe hPa]
  refine ⟨heq, ?_⟩
  rw [heq]
  exact (hs.filter _).sublist (List.take_sublist _ _)

def c6env : LabelEnv :=
  ⟨[(hash40 "alpha", "alpha"), (hash40 "alphabet", "alphabet"),
    (hash40 "beta", "beta")], false, ["alpha", "alphabet", "beta"], false⟩

/-- The editor state after typing `a`, `l`, `p`, `h` into an empty hash
editor over the corpus `{"alpha", "alphabet", "beta"}`. -/
def c6typed : HashInput :=
  (((((⟨"", 0, [], none⟩ : HashInput).handle_event c6env (keyPress (.char 'a'))).1.handle_event
      c6env (keyPress (.char 'l'))).1.handle_event
      c6env (keyPress (.char 'p'))).1.handle_event
      c6env (keyPress (.char 'h'))).1

/-- C6: the prefix scan returns exactly the corpus labels with the input
text as a prefix, ascending and capped at the limit; for corpus
`{"alpha","alphabet","beta"}` and input `"alph"` the matches are
`["alpha", "alphabet"]` in that order, and accepting the first candidate
(Tab) replaces the text with `"alpha"`, after which submission resolves to
`hash40 "alpha"` (the hash the corpus registers for `"alpha"`). -/
theorem autocomplete_matches (env : LabelEnv) (text : String)
    (hs : env.sorted_labels.Pairwise (fun a b => strLt a b = true)) :
    (computeMatches env text
       = (env.sorted_labels.filter (fun l => strStartsWith l text)).take 1000 ∧
     (computeMatches env text).Pairwise (fun a b => strLt a b = true)) ∧
    (c6typed.value = "alph" ∧
     c6typed.matchList = ["alpha", "alphabet"] ∧
     ((c6typed.handle_event c6env (keyPress .tab)).1).value = "alpha" ∧
     ((c6typed.handle_event c6env (keyPress .tab)).1.handle_event c6env
         (keyPress .enter))
       = ({ (c6typed.handle_event c6env (keyPress .tab)).1 with
             return_value := hash40 "alpha" }, .submit) ∧
     hashOfLabel c6env.labelMap "alpha" = some (hash40 "alpha")) := by
  refine ⟨computeMatches_eq env text hs, by decide, by decide, by decide, by decide, by decide⟩

theorem autocomplete_matches_witness :
    (computeMatches c6env "alph"
       = (c6env.sorted_labels.filter (fun l => strStartsWith l "alph")).take 1000 ∧
     (computeMatches c6env "alph").Pairwise (fun a b => strLt a b = true)) ∧
    (c6typed.value = "alph" ∧
     c6typed.matchList = ["alpha", "alphabet"] ∧
     ((c6typed.handle_event c6env (keyPress .tab)).1).value = "alpha" ∧
     ((c6typed.handle_event c6env (keyPress .tab)).1.handle_event c6env
         (keyPress .enter))
       = ({ (c6typed.handle_event c6env (keyPress .tab)).1 with
             return_value := hash40 "alpha" }, .submit) ∧
     hashOfLabel c6env.labelMap "alpha" = some (hash40 "alpha")) :=
  autocomplete_matches c6env "alph" (by decide)

/-! ## Claim C1: submitting a scalar edit -/

/-- With an editor open on a selected row, Enter submits the buffer: the
tree answers `SetValue(row.index, buffer)` and is otherwise unchanged. -/
theorem tree_submit (t : Tree) (inp : Input) (row : TreeRow)
    (hedit : t.editing = some inp) (hrow : t.current_row = some row) :
    t.handle_event (keyPress .enter) = (t, .setValue row.index inp.value) := by
  obtain ⟨d, sel, f, ed⟩ := t
  simp only at hedit
  subst hedit
  simp [Tree.handle_event, Tree.param_index, hrow, Input.handle_event, keyPress]

/-- `App::current_param` is the path walk of `routeIdxs`. -/
theorem foldlM_route_eq_path (route : List RouteInfo) :
    ∀ (base : ParamKind),
      route.foldlM (fun ptr r => (r.indexFn).bind (paramChild? ptr)) base
        = (routeIdxs route).bind (paramAtPath base) := by
  induction route with
  | nil => intro base; simp [routeIdxs, paramAtPath]
  | cons r rest ih =>
      intro base
      cases hif : r.indexFn with
      | none => simp [List.foldlM_cons, routeIdxs, hif]
      | some i =>
          cases hchild : paramChild? base i with
          | none =>
              cases hrest : routeIdxs rest with
              | none => simp [List.foldlM_cons, routeIdxs, hif, hchild, hrest]
              | some p =>
                  simp [List.foldlM_cons, routeIdxs, hif, hchild, hrest, paramAtPath]
          | some c =>
              cases hrest : routeIdxs rest with
              | none => simp [List.foldlM_cons, routeIdxs, hif, hchild, hrest, ih]
              | some p =>
                  simp [List.foldlM_cons, routeIdxs, hif, hchild, hrest, ih, paramAtPath]

theorem current_param_path (a : App) :
    a.current_param = (a.routePath).bind (paramAtPath a.base) :=
  foldlM_route_eq_path a.route a.base

/-- Updating at `path ++ [i]` succeeds whenever the path reaches a
composite `parent` whose child `i` exists, and afterwards the node at
that location is the new value. -/
theorem updateParamAt_append :
    ∀ (path : List Nat) (base parent : ParamKind) (i : Nat) (child v : ParamKind),
      paramAtPath base path = some parent → paramChild? parent i = some child →
      ∃ b', updateParamAt base (path ++ [i]) v = some b' ∧
        paramAtPath b' (path ++ [i]) = some v := by
  intro path
  induction path with
  | nil =>
      intro base parent i child v hpp hchild
      simp only [paramAtPath, Option.some.injEq] at hpp
      subst hpp
      cases base with
      | struct cs =>
          simp only [paramChild?] at hchild
          cases hcs : cs[i]? with
          | none => rw [hcs] at hchild; simp at hchild
          | some kv =>
              have hlen : i < cs.length := (List.getElem?_eq_some.mp hcs).1
              refine ⟨.struct (cs.set i (kv.1, v)), ?_, ?_⟩
              · simp [updateParamAt, paramChild?, hcs, setParamChild]
              · simp [paramAtPath, paramChild?, List.getElem?_set, hlen]
      | list cs =>
          simp only [paramChild?] at hchild
          have hlen : i < cs.length := (List.getElem?_eq_some.mp hchild).1
          refine ⟨.list (cs.set i v), ?_, ?_⟩
          · simp [updateParamAt, paramChild?, hchild, setParamChild]
          · simp [paramAtPath, paramChild?, List.getElem?_set, hlen]
      | bool w => simp [paramChild?] at hchild
      | i8 w => simp [paramChild?] at hchild
      | u8 w => simp [paramChild?] at hchild
      | i16 w => simp [paramChild?] at hchild
      | u16 w => simp [paramChild?] at hchild
      | i32 w => simp [paramChild?] at hchild
      | u32 w => simp [paramChild?] at hchild
      | float w => simp [paramChild?] at hchild
      | hash w => simp [paramChild?] at hchild
      | str w => simp [paramChild?] at hchild
  | cons j rest ih =>
      intro base parent i child v hpp hchild
      simp only [paramAtPath] at hpp
      cases hj : paramChild? base j with
      | none => rw [hj] at hpp; simp at hpp
      | some c0 =>
          rw [hj] at hpp
          simp only [Option.some_bind] at hpp
          obtain ⟨b1, hb1, hb1p⟩ := ih c0 parent i child v hpp hchild
          cases base with
          | struct cs =>
              simp only [paramChild?] at hj
              cases hcs : cs[j]? with
              | none => rw [hcs] at hj; simp at hj
              | some kv =>
                  rw [hcs] at hj
                  simp only [Option.map_some', Option.some.injEq] at hj
                  have hlen : j < cs.length := (List.getElem?_eq_some.mp hcs).1
                  refine ⟨.struct (cs.set j (kv.1, b1)), ?_, ?_⟩
                  · simp [updateParamAt, paramChild?, hcs, hj, hb1, setParamChild,
                      List.cons_append]
                  · simp [paramAtPath, paramChild?, List.getElem?_set, hlen, hb1p]
          | list cs =>
              simp only [paramChild?] at hj
              have hlen : j < cs.length := (List.getElem?_eq_some.mp hj).1
              refine ⟨.list (cs.set j b1), ?_, ?_⟩
              · simp [updateParamAt, paramChild?, hj, hb1, setParamChild,
                  List.cons_append]
              · simp [paramAtPath, paramChild?, List.getElem?_set, hlen, hb1p]
          | bool w => simp [paramChild?] at hj
          | i8 w => simp [paramChild?] at hj
          | u8 w => simp [paramChild?] at hj
          | i16 w => simp [paramChild?] at hj
          | u16 w => simp [paramChild?] at hj
          | i32 w => simp [paramChild?] at hj
          | u32 w => simp [paramChild?] at hj
          | float w => simp [paramChild?] at hj
          | hash w => simp [paramChild?] at hj
          | str w => simp [paramChild?] at hj

/-- C1: with an edit session open on a terminal node, Enter submits the
buffer; if the text parses for the node's declared type the machine goes
back to browsing (editor closed) with the node mutated to the parsed
value and the document marked unsaved; otherwise it stays editing with
the parse error message set and the document (hence the node) unchanged. -/
theorem scalar_submit (lbl : LabelMap) (a : App) (inp : Input) (row : TreeRow)
    (path : List Nat) (parent child : ParamKind)
    (hmode : a.mode = .paramView)
    (hedit : a.tail.editing = some inp)
    (hrow : a.tail.current_row = some row)
    (hpath : a.routePath = some path)
    (hparent : a.current_param = some parent)
    (hchild : paramChild? parent row.index = some child)
    (hterm : child.isComposite = false) :
    (∀ newChild, parseForChild child inp.value = some newChild →
       ∃ a' base', App.handle_event lbl a (keyPress .enter) = some (a', .none) ∧
         updateParamAt a.base (path ++ [row.index]) newChild = some base' ∧
         a'.base = base' ∧
         paramAtPath a'.base (path ++ [row.index]) = some newChild ∧
         a'.tail.editing = none ∧ a'.unsaved = true ∧ a'.mode = .paramView) ∧
    (parseForChild child inp.value = none →
       ∃ a', App.handle_event lbl a (keyPress .enter) = some (a', .none) ∧
         a'.base = a.base ∧
         a'.tail.editing = some { inp with error := some "[Parse error]" } ∧
         a'.mode = .paramView ∧ a'.unsaved = a.unsaved) := by
  obtain ⟨base, mode, tail, route, filt, unsaved⟩ := a
  simp only at hmode hedit hrow hpath hparent
  subst hmode
  have hpp : paramAtPath base path = some parent := by
    have := current_param_path ⟨base, .paramView, tail, route, filt, unsaved⟩
    simp only [App.routePath] at this hpath
    rw [hpath] at this
    simp only [Option.some_bind] at this
    rw [← this]
    exact hparent
  have ht := tree_submit tail inp row hedit hrow
  constructor
  · intro newChild hparse
    obtain ⟨base', hupd, hat⟩ :=
      updateParamAt_append path base parent row.index child newChild hpp hchild
    have hrowset : tail.set_current_row_value (get_value lbl newChild)
        = some { tail with data := { tail.data with
            rows := tail.data.rows.set tail.index
              { row with value := get_value lbl newChild } } } := by
      simp only [Tree.set_current_row_value, Tree.current_row] at hrow ⊢
      rw [hrow]
      rfl
    refine ⟨{ base := base', mode := .paramView,
              tail := ({ tail with data := { tail.data with
                rows := tail.data.rows.set tail.index
                  { row with value := get_value lbl newChild } } }).finish_editing,
              route := route, filter := filt, unsaved := true },
            base', ?_, hupd, rfl, ?_, rfl, rfl, rfl⟩
    · simp only [App.handle_event, ht, App.current_param, App.routePath]
      rw [show (List.foldlM (fun ptr r => (r.indexFn).bind (paramChild? ptr)) base route)
          = some parent from hparent]
      simp only [Option.some_bind, Option.bind_eq_bind]
      rw [hchild]
      simp only [Option.some_bind, hterm, Bool.false_eq_true, if_false, hparse]
      rw [show routeIdxs route = some path from hpath]
      simp only [Option.some_bind]
      rw [hupd, hrowset]
      rfl
    · exact hat
  · intro hparse
    refine ⟨{ base := base, mode := .paramView,
              tail := tail.set_editing_error (some "[Parse error]"),
              route := route, filter := filt, unsaved := unsaved }, ?_, rfl, ?_, rfl, rfl⟩
    · simp only [App.handle_event, ht, App.current_param, App.routePath]
      rw [show (List.foldlM (fun ptr r => (r.indexFn).bind (paramChild? ptr)) base route)
          = some parent from hparent]
      simp only [Option.some_bind, Option.bind_eq_bind]
      rw [hchild]
      simp only [Option.some_bind, hterm, Bool.false_eq_true, if_false, hparse]
    · simp only [Tree.set_editing_error, hedit]

def c1lbl : LabelMap := [(1, "A")]

def c1base : ParamKind := .struct [(1, .u32 5)]

def c1app : App :=
  ⟨c1base, .paramView,
   ⟨⟨[⟨0, "A", .u32, "5", false⟩], .struct⟩, ⟨0, some 0⟩, true, some ⟨"7", none, true⟩⟩,
   [], ⟨Input.default, "", none⟩, false⟩

theorem scalar_submit_witness :
    ∃ a' base', App.handle_event c1lbl c1app (keyPress .enter) = some (a', .none) ∧
      updateParamAt c1app.base ([] ++ [0]) (.u32 7) = some base' ∧
      a'.base = base' ∧
      paramAtPath a'.base ([] ++ [0]) = some (.u32 7) ∧
      a'.tail.editing = none ∧ a'.unsaved = true ∧ a'.mode = .paramView :=
  (scalar_submit c1lbl c1app ⟨"7", none, true⟩ ⟨0, "A", .u32, "5", false⟩ []
    c1base (.u32 5) rfl rfl rfl rfl rfl rfl rfl).1 (.u32 7) rfl

/-! ## Claim C3: enter immediately followed by exit restores the level -/

/-- With no editor open, Enter asks to focus and Backspace to unfocus,
leaving the tree itself unchanged. -/
theorem tree_browse_keys (t : Tree) (hedit : t.editing = none) :
    t.handle_event (keyPress .enter) = (t, .focus) ∧
    t.handle_event (keyPress .backspace) = (t, .unfocus) := by
  obtain ⟨d, sel, f, ed⟩ := t
  simp only at hedit
  subst hedit
  constructor <;> rfl

/-- In a row list with strictly increasing indices, looking up the index
of the row at position `p` finds exactly position `p`. -/
theorem findIdx?_index_of_pairwise :
    ∀ (rows : List TreeRow), rows.Pairwise (fun a b => a.index < b.index) →
      ∀ (p : Nat) (row : TreeRow), rows[p]? = some row →
        rows.findIdx? (fun r => r.index == row.index) = some p := by
  intro rows
  induction rows with
  | nil => intro _ p row h; simp at h
  | cons x rest ih =>
      intro hpw p row hget
      rw [List.pairwise_cons] at hpw
      cases p with
      | zero =>
          simp only [List.getElem?_cons_zero, Option.some.injEq] at hget
          subst hget
          simp [List.findIdx?_cons]
      | succ p' =>
          simp only [List.getElem?_cons_succ] at hget
          have hmem : row ∈ rest := List.getElem?_mem hget
          have hlt : x.index < row.index := hpw.1 row hmem
          have hne : (x.index == row.index) = false := by
            simp only [beq_eq_false_iff_ne, ne_eq]
            omega
          rw [List.findIdx?_cons]
          simp [hne, ih hpw.2 p' row hget]

/-- The rows of a (possibly filtered) fresh projection keep strictly
increasing source indices. -/
theorem apply_filter_rows_pairwise (lbl : LabelMap) (param : ParamKind)
    (td : TreeData) (htd : TreeData.new lbl param = some td)
    (filt : Option FilterPred) :
    (td.apply_filter filt).rows.Pairwise (fun a b => a.index < b.index) := by
  have hpw := treeDataNew_rows_pairwise lbl param td htd
  cases filt with
  | none => exact hpw
  | some pred => exact hpw.filter _

/-- C3: from a well-formed browsing level (its row data derived from the
current param and the active filter), entering the selected composite row
(Enter) immediately followed by exiting (Backspace) restores the prior
route, selection, filter and document exactly, back in browsing mode. -/
theorem enter_exit_roundtrip (lbl : LabelMap) (a : App) (p : Nat)
    (param : ParamKind) (td : TreeData) (row : TreeRow) (a₁ : App)
    (r₁ : AppResponse)
    (hmode : a.mode = .paramView)
    (hedit : a.tail.editing = none)
    (hsel : a.tail.selection.selected = some p)
    (hparam : a.current_param = some param)
    (htd : TreeData.new lbl param = some td)
    (hdata : a.tail.data = td.apply_filter a.filter.regex?)
    (hrow : a.tail.current_row = some row)
    (hpar : row.is_parent = true)
    (h1 : App.handle_event lbl a (keyPress .enter) = some (a₁, r₁)) :
    ∃ a₂, App.handle_event lbl a₁ (keyPress .backspace) = some (a₂, .none) ∧
      a₂.base = a.base ∧ a₂.route = a.route ∧ a₂.filter = a.filter ∧
      a₂.tail.selection = a.tail.selection ∧ a₂.tail.data = a.tail.data ∧
      a₂.tail.editing = none ∧ a₂.mode = .paramView ∧ a₂.unsaved = a.unsaved := by
  obtain ⟨base, mode, tail, route, filt, unsaved⟩ := a
  simp only at hmode hedit hsel hparam hdata hrow
  subst hmode
  have htb := tree_browse_keys tail hedit
  have hfold : List.foldlM (fun ptr r => (r.indexFn).bind (paramChild? ptr)) base route
      = some param := hparam
  -- invert the Enter step
  rw [show App.handle_event lbl ⟨base, .paramView, tail, route, filt, unsaved⟩
        (keyPress .enter)
      = (paramChild? param p).bind (fun c =>
          (Tree.new lbl c filt.regex?).bind (fun t =>
            some (⟨base, .paramView, t,
                   route ++ [⟨tail.selection, row.index, row.name⟩], filt, unsaved⟩,
                  .none)))
      from ?side] at h1
  case side =>
    simp only [App.handle_event, htb.1, hrow, hpar, if_true, RouteInfo.new,
      Option.map_some', Option.some_bind, App.current_param, Option.bind_eq_bind]
    rw [List.foldlM_append, hfold]
    simp only [Option.some_bind, List.foldlM_cons, RouteInfo.indexFn, hsel,
      Option.some_bind, List.foldlM_nil, Option.bind_eq_bind]
    cases hc : paramChild? param p with
    | none => rfl
    | some child =>
        simp only [Option.pure_def, Option.some_bind]
  cases hc : paramChild? param p with
  | none => rw [hc] at h1; simp at h1
  | some child =>
      rw [hc] at h1
      simp only [Option.some_bind] at h1
      cases htn : Tree.new lbl child filt.regex? with
      | none => rw [htn] at h1; simp at h1
      | some t' =>
          rw [htn] at h1
          simp only [Option.some_bind, Option.some.injEq, Prod.mk.injEq] at h1
          obtain ⟨ha₁, hr₁⟩ := h1
          subst ha₁
          -- shape of the fresh child level
          obtain ⟨d, hd, ht'⟩ : ∃ d, TreeData.new lbl child = some d ∧
              t' = ⟨d.apply_filter filt.regex?, TableState.default.select (some 0),
                    true, none⟩ := by
            simp only [Tree.new] at htn
            cases hdd : TreeData.new lbl child with
            | none => rw [hdd] at htn; simp at htn
            | some d =>
                rw [hdd] at htn
                simp only [Option.map_some', Option.some.injEq] at htn
                exact ⟨d, rfl, htn.symm⟩
          subst ht'
          -- the Backspace step
          have hrows : (td.apply_filter filt.regex?).rows[p]? = some row := by
            rw [← hdata]
            have : tail.index = p := by simp [Tree.index, hsel]
            rw [← this]
            exact hrow
          have hpos : (td.apply_filter filt.regex?).rows.findIdx?
              (fun r => r.index == row.index) = some p :=
            findIdx?_index_of_pairwise _
              (apply_filter_rows_pairwise lbl param td htd filt.regex?) p row hrows
          refine ⟨⟨base, .paramView,
                   ⟨td.apply_filter filt.regex?,
                    ⟨tail.selection.offset, some p⟩, true, none⟩,
                   route, filt, unsaved⟩, ?_, rfl, rfl, rfl, ?_, hdata.symm, rfl, rfl, rfl⟩
          · simp only [App.handle_event]
            rw [show (⟨d.apply_filter filt.regex?, TableState.default.select (some 0),
                  true, none⟩ : Tree).handle_event (keyPress .backspace)
                = (⟨d.apply_filter filt.regex?, TableState.default.select (some 0),
                    true, none⟩, .unfocus)
              from (tree_browse_keys _ rfl).2]
            simp only [List.getLast?_concat, List.dropLast_concat, App.current_param,
              Option.bind_eq_bind]
            rw [hfold]
            simp only [Option.some_bind, Tree.new_with_state, htd, Option.map_some',
              Tree.select_param_index, hpos, Option.getD_some, TableState.select]
          · cases hts : tail.selection with
            | mk o s =>
                rw [hts] at hsel
                simp only at hsel
                subst hsel
                rfl

def c3lbl : LabelMap := [(1, "X"), (2, "Y")]

def c3base : ParamKind := .struct [(1, .struct [(2, .bool true)])]

def c3app : App :=
  ⟨c3base, .paramView,
   ⟨⟨[⟨0, "X", .struct, "(1 children)", true⟩], .struct⟩, ⟨0, some 0⟩, true, none⟩,
   [], ⟨Input.default, "", none⟩, false⟩

/-- The state after entering the composite row of `c3app`. -/
def c3a1 : App :=
  ⟨c3base, .paramView,
   ⟨⟨[⟨0, "Y", .bool, "true", false⟩], .struct⟩, ⟨0, some 0⟩, true, none⟩,
   [⟨⟨0, some 0⟩, 0, "X"⟩], ⟨Input.default, "", none⟩, false⟩

theorem enter_exit_roundtrip_witness :
    ∃ a₂, App.handle_event c3lbl c3a1 (keyPress .backspace) = some (a₂, .none) ∧
      a₂.base = c3app.base ∧ a₂.route = c3app.route ∧ a₂.filter = c3app.filter ∧
      a₂.tail.selection = c3app.tail.selection ∧ a₂.tail.data = c3app.tail.data ∧
      a₂.tail.editing = none ∧ a₂.mode = .paramView ∧ a₂.unsaved = c3app.unsaved :=
  enter_exit_roundtrip c3lbl c3app 0 c3base
    ⟨[⟨0, "X", .struct, "(1 children)", true⟩], .struct⟩
    ⟨0, "X", .struct, "(1 children)", true⟩ c3a1 .none
    rfl rfl rfl rfl rfl rfl rfl rfl rfl

end Prickly
